import Mathlib

/-
Verification of the QAEWO route-optimizer repository.

The React frontend (App.js, WaypointManager.js, SearchBar.js) is embedded
directly.  The Python optimizer backend (hybrid quantum/whale optimizer with
2-opt refinement) is not part of the available sources; following the
specification, its data model and phases are modelled from the spec's words
(each such definition carries a doc comment starting with
"Modelled from the spec:").  JavaScript strings are embedded as lists of
characters; distances and path costs are embedded as integers (the source
works with IEEE floats, whose exact rounding is immaterial to every claim
settled here); the continuous key vectors of the codec are embedded as
rationals.
-/

/-! ## Frontend data model (App.js / WaypointManager.js) -/

/-- Waypoint role assigned by the UI: 'start', 'destination' or 'waypoint'. -/
inductive PointType where
  | start
  | destination
  | waypoint
deriving DecidableEq

/-- Entry of the App.js waypoints state: location data plus its type tag. -/
structure Waypoint where
  lat : ℚ
  lng : ℚ
  name : String
  address : String
  ptype : PointType
deriving DecidableEq

/-- Payload entry sent to the backend: the type tag is stripped
(App.js handleOptimize maps to lat, lng, name, address). -/
structure LocOut where
  lat : ℚ
  lng : ℚ
  name : String
  address : String
deriving DecidableEq

/-- Predicate of App.js: waypoints.find(w => w.type === 'start'). -/
def isStartW (w : Waypoint) : Bool := w.ptype == PointType.start

/-- Predicate of App.js: waypoints.find(w => w.type === 'destination'). -/
def isDestW (w : Waypoint) : Bool := w.ptype == PointType.destination

/-- Predicate of App.js: waypoints.filter(w => w.type === 'waypoint'). -/
def isMidW (w : Waypoint) : Bool := w.ptype == PointType.waypoint

/-- Drop the type tag, as handleOptimize's map does before sending. -/
def stripType (w : Waypoint) : LocOut := ⟨w.lat, w.lng, w.name, w.address⟩

/-- Request assembly of App.js handleOptimize: find the start-typed and
destination-typed entries; if either is missing, fail with the error message;
otherwise send start, then the 'waypoint'-typed entries in order, then the
destination. -/
def buildRequest (ws : List Waypoint) : Except String (List LocOut) :=
  match ws.find? isStartW, ws.find? isDestW with
  | some s, some t => Except.ok ((s :: ws.filter isMidW ++ [t]).map stripType)
  | _, _ => Except.error "Please add both start point and destination"

/-- True when handleOptimize proceeds to the backend call (no validation
error). -/
def reqAccepted (ws : List Waypoint) : Bool :=
  match buildRequest ws with
  | Except.ok _ => true
  | Except.error _ => false

/-- Optimization payload stored in optimizedRoute state (response.data.data). -/
structure RouteData where
  totalDistance : ℤ
  totalDuration : ℤ
deriving DecidableEq

/-- React state of App.js relevant to handleOptimize. -/
structure AppState where
  waypoints : List Waypoint
  optimizedRoute : Option RouteData
  errorMsg : Option String
  isOptimizing : Bool
deriving DecidableEq

/-- Outcome of the awaited backend request in handleOptimize: a response with
success true carrying data, a response with success false carrying an optional
error string, or a thrown error carrying an optional response error string. -/
inductive ApiOutcome where
  | success (d : RouteData)
  | failure (e : Option String)
  | threw (e : Option String)
deriving DecidableEq

/-- JavaScript's x || fallback on an optional error string: the fallback is
used when the field is absent or is the empty (falsy) string. -/
def fallbackMsg (e : Option String) (dflt : String) : String :=
  match e with
  | none => dflt
  | some s => if s = "" then dflt else s

/-- State transition of App.js handleOptimize: validation may fail before the
request is issued; otherwise the response outcome decides which state fields
change.  setIsOptimizing(false) runs in the finally block of the source. -/
def handleOptimize (st : AppState) (outcome : ApiOutcome) : AppState :=
  if (st.waypoints.find? isStartW) = none ∨ (st.waypoints.find? isDestW) = none then
    { st with errorMsg := some "Please add both start point and destination" }
  else
    match outcome with
    | ApiOutcome.success d =>
        { st with optimizedRoute := some d, errorMsg := none, isOptimizing := false }
    | ApiOutcome.failure e =>
        { st with errorMsg := some (fallbackMsg e "Optimization failed"),
                  isOptimizing := false }
    | ApiOutcome.threw e =>
        { st with errorMsg := some (fallbackMsg e "Failed to connect to backend"),
                  isOptimizing := false }

/-- Location object passed by SearchBar.js to onLocationSelect. -/
structure SelLocation where
  name : String
  address : String
  lat : ℚ
  lng : ℚ
deriving DecidableEq

/-- App.js handleAddWaypoint: setWaypoints([...waypoints, waypoint]). -/
def handleAddWaypoint (ws : List Waypoint) (w : Waypoint) : List Waypoint :=
  ws ++ [w]

/-- Conversion of a selected location into a typed waypoint entry
({...location, type: t}). -/
def toWaypoint (loc : SelLocation) (t : PointType) : Waypoint :=
  ⟨loc.lat, loc.lng, loc.name, loc.address, t⟩

/-- WaypointManager.js handleStartSelect: appends the selection with type
'start' via onAddWaypoint (no removal of an existing start occurs in the
code). -/
def handleStartSelect (ws : List Waypoint) (loc : SelLocation) : List Waypoint :=
  handleAddWaypoint ws (toWaypoint loc PointType.start)

/-- WaypointManager.js handleDestSelect: appends the selection with type
'destination' via onAddWaypoint. -/
def handleDestSelect (ws : List Waypoint) (loc : SelLocation) : List Waypoint :=
  handleAddWaypoint ws (toWaypoint loc PointType.destination)

/-! ## City search (SearchBar.js), strings as lists of characters -/

/-- City record of the INDIAN_CITIES database in SearchBar.js. -/
structure City where
  name : List Char
  state : List Char
  lat : ℚ
  lng : ℚ
deriving DecidableEq

/-- Whitespace test used to embed JavaScript's String.trim. -/
def isWs (c : Char) : Bool := c = ' ' || c = '\t' || c = '\n' || c = '\r'

/-- JavaScript String.trim on a character list: strip whitespace from both
ends. -/
def jsTrim (s : List Char) : List Char :=
  ((s.dropWhile isWs).reverse.dropWhile isWs).reverse

/-- JavaScript String.toLowerCase on a character list. -/
def jsToLower (s : List Char) : List Char := s.map Char.toLower

/-- Check that the pattern is an initial run of the text. -/
def takesFrom : List Char → List Char → Bool
  | [], _ => true
  | _ :: _, [] => false
  | a :: ps, b :: ts => a == b && takesFrom ps ts

/-- Check that the pattern occurs contiguously somewhere in the text
(JavaScript String.includes). -/
def hasRun (p : List Char) : List Char → Bool
  | [] => takesFrom p []
  | b :: ts => takesFrom p (b :: ts) || hasRun p ts

/-- SearchBar.js filter predicate: city.name.toLowerCase().includes(term) ||
city.state.toLowerCase().includes(term), with term lowercased (note: the
source lowercases but does not trim the term used for matching). -/
def cityMatches (term : List Char) (c : City) : Bool :=
  hasRun (jsToLower term) (jsToLower c.name) || hasRun (jsToLower term) (jsToLower c.state)

/-- The INDIAN_CITIES database of SearchBar.js. -/
def INDIAN_CITIES : List City := [
  ⟨"Chennai".data, "Tamil Nadu".data, 13.0827, 80.2707⟩,
  ⟨"Coimbatore".data, "Tamil Nadu".data, 11.0168, 76.9558⟩,
  ⟨"Madurai".data, "Tamil Nadu".data, 9.9252, 78.1198⟩,
  ⟨"Tiruchirappalli".data, "Tamil Nadu".data, 10.7905, 78.7047⟩,
  ⟨"Salem".data, "Tamil Nadu".data, 11.6643, 78.1460⟩,
  ⟨"Tirunelveli".data, "Tamil Nadu".data, 8.7139, 77.7567⟩,
  ⟨"Erode".data, "Tamil Nadu".data, 11.3410, 77.7172⟩,
  ⟨"Vellore".data, "Tamil Nadu".data, 12.9165, 79.1325⟩,
  ⟨"Thoothukudi".data, "Tamil Nadu".data, 8.7642, 78.1348⟩,
  ⟨"Dindigul".data, "Tamil Nadu".data, 10.3673, 77.9803⟩,
  ⟨"Thanjavur".data, "Tamil Nadu".data, 10.7870, 79.1378⟩,
  ⟨"Ranipet".data, "Tamil Nadu".data, 12.9249, 79.3333⟩,
  ⟨"Sivakasi".data, "Tamil Nadu".data, 9.4523, 77.7906⟩,
  ⟨"Karur".data, "Tamil Nadu".data, 10.9601, 78.0766⟩,
  ⟨"Kanchipuram".data, "Tamil Nadu".data, 12.8342, 79.7036⟩,
  ⟨"Tiruppur".data, "Tamil Nadu".data, 11.1075, 77.3398⟩,
  ⟨"Nagercoil".data, "Tamil Nadu".data, 8.1790, 77.4338⟩,
  ⟨"Cuddalore".data, "Tamil Nadu".data, 11.7480, 79.7714⟩,
  ⟨"Kumbakonam".data, "Tamil Nadu".data, 10.9617, 79.3881⟩,
  ⟨"Puducherry".data, "Puducherry UT".data, 11.9416, 79.8083⟩,
  ⟨"Karaikal".data, "Puducherry UT".data, 10.9254, 79.8380⟩,
  ⟨"Yanam".data, "Puducherry UT".data, 16.7333, 82.2167⟩,
  ⟨"Mahe".data, "Puducherry UT".data, 11.7009, 75.5371⟩,
  ⟨"Mumbai".data, "Maharashtra".data, 19.0760, 72.8777⟩,
  ⟨"Delhi".data, "Delhi".data, 28.7041, 77.1025⟩,
  ⟨"Bangalore".data, "Karnataka".data, 12.9716, 77.5946⟩,
  ⟨"Hyderabad".data, "Telangana".data, 17.3850, 78.4867⟩,
  ⟨"Ahmedabad".data, "Gujarat".data, 23.0225, 72.5714⟩,
  ⟨"Pune".data, "Maharashtra".data, 18.5204, 73.8567⟩,
  ⟨"Kolkata".data, "West Bengal".data, 22.5726, 88.3639⟩,
  ⟨"Surat".data, "Gujarat".data, 21.1702, 72.8311⟩,
  ⟨"Jaipur".data, "Rajasthan".data, 26.9124, 75.7873⟩,
  ⟨"Lucknow".data, "Uttar Pradesh".data, 26.8467, 80.9462⟩,
  ⟨"Kanpur".data, "Uttar Pradesh".data, 26.4499, 80.3319⟩,
  ⟨"Nagpur".data, "Maharashtra".data, 21.1458, 79.0882⟩,
  ⟨"Visakhapatnam".data, "Andhra Pradesh".data, 17.6868, 83.2185⟩,
  ⟨"Bhopal".data, "Madhya Pradesh".data, 23.2599, 77.4126⟩,
  ⟨"Patna".data, "Bihar".data, 25.5941, 85.1376⟩,
  ⟨"Vadodara".data, "Gujarat".data, 22.3072, 73.1812⟩,
  ⟨"Ghaziabad".data, "Uttar Pradesh".data, 28.6692, 77.4538⟩,
  ⟨"Ludhiana".data, "Punjab".data, 30.9010, 75.8573⟩,
  ⟨"Agra".data, "Uttar Pradesh".data, 27.1767, 78.0081⟩,
  ⟨"Kochi".data, "Kerala".data, 9.9312, 76.2673⟩,
  ⟨"Thiruvananthapuram".data, "Kerala".data, 8.5241, 76.9366⟩,
  ⟨"Kozhikode".data, "Kerala".data, 11.2588, 75.7804⟩]

/-- SearchBar.js result computation: with a trimmed term of length at least 2,
filter the database and keep the first 8 matches; otherwise show nothing. -/
def searchResults (term : List Char) : List City :=
  if 2 ≤ (jsTrim term).length then
    (INDIAN_CITIES.filter (cityMatches term)).take 8
  else []

lemma two_mem_le_length {α : Type} {a b : α} {l : List α}
    (ha : a ∈ l) (hb : b ∈ l) (hne : a ≠ b) : 2 ≤ l.length := by
  match l with
  | [] => cases ha
  | [x] =>
    simp only [List.mem_singleton] at ha hb
    exact absurd (ha.trans hb.symm) hne
  | x :: y :: t => simp only [List.length]; omega

theorem buildRequest_error_iff (ws : List Waypoint) :
    (reqAccepted ws = false ↔ (ws.find? isStartW = none ∨ ws.find? isDestW = none))
    ∧ (reqAccepted ws = true → 2 ≤ ws.length) := by
  constructor
  · unfold reqAccepted buildRequest
    rcases h1 : ws.find? isStartW with _ | s <;>
      rcases h2 : ws.find? isDestW with _ | t <;> simp
  · intro h
    unfold reqAccepted buildRequest at h
    rcases h1 : ws.find? isStartW with _ | s
    · rw [h1] at h; simp at h
    rcases h2 : ws.find? isDestW with _ | t
    · rw [h1, h2] at h; simp at h
    have hs := List.mem_of_find?_eq_some h1
    have ht := List.mem_of_find?_eq_some h2
    have hsp := List.find?_some h1
    have htp := List.find?_some h2
    have hne : s ≠ t := by
      intro he
      subst he
      unfold isStartW at hsp
      unfold isDestW at htp
      rw [beq_iff_eq] at hsp htp
      rw [hsp] at htp
      cases htp
    exact two_mem_le_length hs ht hne

theorem buildRequest_order (ws : List Waypoint) (s t : Waypoint)
    (h1 : ws.find? isStartW = some s) (h2 : ws.find? isDestW = some t) :
    buildRequest ws = Except.ok ((s :: ws.filter isMidW ++ [t]).map stripType)
    ∧ (ws.filter isMidW).Sublist ws := by
  unfold buildRequest
  rw [h1, h2]
  exact ⟨rfl, List.filter_sublist ws⟩

def wStartX : Waypoint := ⟨1, 2, "A", "a", PointType.start⟩
def wMidX : Waypoint := ⟨3, 4, "B", "b", PointType.waypoint⟩
def wDestX : Waypoint := ⟨5, 6, "C", "c", PointType.destination⟩

theorem buildRequest_order_app :
    ([wStartX, wMidX, wDestX].find? isStartW = some wStartX)
    ∧ ([wStartX, wMidX, wDestX].find? isDestW = some wDestX)
    ∧ (buildRequest [wStartX, wMidX, wDestX]
        = Except.ok ((wStartX :: [wStartX, wMidX, wDestX].filter isMidW ++ [wDestX]).map stripType)
      ∧ ([wStartX, wMidX, wDestX].filter isMidW).Sublist [wStartX, wMidX, wDestX]) :=
  ⟨rfl, rfl, buildRequest_order _ _ _ rfl rfl⟩

theorem handleOptimize_error_preserves_route (st : AppState) (o : ApiOutcome) :
    (∀ e, o = ApiOutcome.failure e →
      (handleOptimize st o).optimizedRoute = st.optimizedRoute
      ∧ (handleOptimize st o).errorMsg ≠ none)
    ∧ (∀ e, o = ApiOutcome.threw e →
      (handleOptimize st o).optimizedRoute = st.optimizedRoute
      ∧ (handleOptimize st o).errorMsg ≠ none)
    ∧ ((handleOptimize st o).optimizedRoute ≠ st.optimizedRoute →
        ∃ d, o = ApiOutcome.success d) := by
  unfold handleOptimize
  by_cases hv : (st.waypoints.find? isStartW) = none ∨ (st.waypoints.find? isDestW) = none
  · simp only [hv, if_pos]
    refine ⟨?_, ?_, ?_⟩ <;> intro h <;> simp_all
  · simp only [hv, if_neg, not_false_iff]
    cases o with
    | success d =>
      refine ⟨?_, ?_, ?_⟩
      · intro e he; cases he
      · intro e he; cases he
      · intro _; exact ⟨d, rfl⟩
    | failure e =>
      refine ⟨?_, ?_, ?_⟩
      · intro e2 he; simp
      · intro e2 he; cases he
      · intro h; simp at h
    | threw e =>
      refine ⟨?_, ?_, ?_⟩
      · intro e2 he; cases he
      · intro e2 he; simp
      · intro h; simp at h

theorem addSecondStart_keeps_first (ws : List Waypoint) (loc : SelLocation) :
    (handleStartSelect ws loc = ws ++ [toWaypoint loc PointType.start]
      ∧ ((ws.find? isStartW).isSome = true →
          (handleStartSelect ws loc).find? isStartW = ws.find? isStartW)
      ∧ (handleStartSelect ws loc).countP isStartW = ws.countP isStartW + 1)
    ∧ (handleDestSelect ws loc = ws ++ [toWaypoint loc PointType.destination]
      ∧ ((ws.find? isDestW).isSome = true →
          (handleDestSelect ws loc).find? isDestW = ws.find? isDestW)
      ∧ (handleDestSelect ws loc).countP isDestW = ws.countP isDestW + 1) := by
  constructor
  · refine ⟨rfl, ?_, ?_⟩
    · intro h
      unfold handleStartSelect handleAddWaypoint
      rw [List.find?_append]
      rcases hf : ws.find? isStartW with _ | s
      · rw [hf] at h; cases h
      · rfl
    · unfold handleStartSelect handleAddWaypoint
      rw [List.countP_append]
      simp [List.countP_cons, isStartW, toWaypoint]
  · refine ⟨rfl, ?_, ?_⟩
    · intro h
      unfold handleDestSelect handleAddWaypoint
      rw [List.find?_append]
      rcases hf : ws.find? isDestW with _ | s
      · rw [hf] at h; cases h
      · rfl
    · unfold handleDestSelect handleAddWaypoint
      rw [List.countP_append]
      simp [List.countP_cons, isDestW, toWaypoint]

def locX : SelLocation := ⟨"D", "d", 7, 8⟩

theorem addSecondStart_keeps_first_app :
    (([wStartX, wDestX].find? isStartW).isSome = true)
    ∧ (([wStartX, wDestX].find? isDestW).isSome = true)
    ∧ ((handleStartSelect [wStartX, wDestX] locX
          = [wStartX, wDestX] ++ [toWaypoint locX PointType.start]
        ∧ (([wStartX, wDestX].find? isStartW).isSome = true →
            (handleStartSelect [wStartX, wDestX] locX).find? isStartW
              = [wStartX, wDestX].find? isStartW)
        ∧ (handleStartSelect [wStartX, wDestX] locX).countP isStartW
            = [wStartX, wDestX].countP isStartW + 1)
      ∧ (handleDestSelect [wStartX, wDestX] locX
          = [wStartX, wDestX] ++ [toWaypoint locX PointType.destination]
        ∧ (([wStartX, wDestX].find? isDestW).isSome = true →
            (handleDestSelect [wStartX, wDestX] locX).find? isDestW
              = [wStartX, wDestX].find? isDestW)
        ∧ (handleDestSelect [wStartX, wDestX] locX).countP isDestW
            = [wStartX, wDestX].countP isDestW + 1)) :=
  ⟨rfl, rfl, addSecondStart_keeps_first [wStartX, wDestX] locX⟩

theorem searchResults_spec (term : List Char) :
    ((jsTrim term).length < 2 → searchResults term = [])
    ∧ (2 ≤ (jsTrim term).length →
        searchResults term = (INDIAN_CITIES.filter (cityMatches term)).take 8)
    ∧ (searchResults term).length ≤ 8
    ∧ (searchResults term).Sublist INDIAN_CITIES
    ∧ (∀ c ∈ searchResults term, cityMatches term c = true) := by
  have hempty : (jsTrim term).length < 2 → searchResults term = [] := by
    intro hlt
    unfold searchResults
    rw [if_neg (by omega)]
  have hfull : 2 ≤ (jsTrim term).length →
      searchResults term = (INDIAN_CITIES.filter (cityMatches term)).take 8 := by
    intro hge
    unfold searchResults
    rw [if_pos hge]
  refine ⟨hempty, hfull, ?_, ?_, ?_⟩
  · by_cases h : 2 ≤ (jsTrim term).length
    · rw [hfull h, List.length_take]
      exact min_le_left _ _
    · rw [hempty (by omega)]
      simp
  · by_cases h : 2 ≤ (jsTrim term).length
    · rw [hfull h]
      exact (List.take_sublist _ _).trans (List.filter_sublist _)
    · rw [hempty (by omega)]
      exact List.nil_sublist _
  · intro c hc
    by_cases h : 2 ≤ (jsTrim term).length
    · rw [hfull h] at hc
      exact List.of_mem_filter (List.mem_of_mem_take hc)
    · rw [hempty (by omega)] at hc
      cases hc

/-! ## Candidate codec, modelled from the spec -/

/-- Key lookup in a key vector; out-of-range dimensions read as 0. -/
def keyAt (keys : List ℚ) (i : ℕ) : ℚ := keys.getD i 0

/-- Modelled from the spec: the total order used by the decoder — compare
interior indices by key value ascending, ties broken by original index
ascending (spec 4.1 and 3, Candidate). -/
def keyRel (keys : List ℚ) (i j : ℕ) : Prop :=
  keyAt keys i < keyAt keys j ∨ (keyAt keys i = keyAt keys j ∧ i ≤ j)

instance (keys : List ℚ) : DecidableRel (keyRel keys) := fun _ _ =>
  inferInstanceAs (Decidable (_ ∨ _))

instance (keys : List ℚ) : IsTotal ℕ (keyRel keys) where
  total i j := by
    unfold keyRel
    rcases lt_trichotomy (keyAt keys i) (keyAt keys j) with h | h | h
    · exact Or.inl (Or.inl h)
    · rcases Nat.le_total i j with hij | hij
      · exact Or.inl (Or.inr ⟨h, hij⟩)
      · exact Or.inr (Or.inr ⟨h.symm, hij⟩)
    · exact Or.inr (Or.inl h)

instance (keys : List ℚ) : IsTrans ℕ (keyRel keys) where
  trans i j k hij hjk := by
    unfold keyRel at *
    rcases hij with h1 | ⟨h1, h1b⟩ <;> rcases hjk with h2 | ⟨h2, h2b⟩
    · exact Or.inl (h1.trans h2)
    · exact Or.inl (h2 ▸ h1)
    · exact Or.inl (h1 ▸ h2)
    · exact Or.inr ⟨h1.trans h2, h1b.trans h2b⟩

instance (keys : List ℚ) : IsAntisymm ℕ (keyRel keys) where
  antisymm i j hij hji := by
    unfold keyRel at *
    rcases hij with h1 | ⟨h1, h1b⟩ <;> rcases hji with h2 | ⟨h2, h2b⟩
    · exact absurd (h1.trans h2) (lt_irrefl _)
    · exact absurd h1 (h2 ▸ lt_irrefl _)
    · exact absurd h2 (h1 ▸ lt_irrefl _)
    · exact Nat.le_antisymm h1b h2b

/-- Modelled from the spec: decode(keyVector) sorts the n interior indices by
key value ascending, stable tie-break by index (spec 4.1).  Insertion sort
realizes the deterministic total order of spec 3. -/
def decode (n : ℕ) (keys : List ℚ) : List ℕ :=
  List.insertionSort (keyRel keys) (List.range n)

/-- Modelled from the spec: encode(tour) produces evenly spaced keys
consistent with the tour order (spec 4.1) — interior index i receives key
(position of i in the tour + 1) / (n + 1), inside [0,1]. -/
def encode (t : List ℕ) : List ℚ :=
  (List.range t.length).map (fun i => ((t.indexOf i : ℚ) + 1) / ((t.length : ℚ) + 1))

lemma decode_perm (n : ℕ) (keys : List ℚ) : (decode n keys).Perm (List.range n) :=
  List.perm_insertionSort _ _

lemma decode_length (n : ℕ) (keys : List ℚ) : (decode n keys).length = n := by
  rw [(decode_perm n keys).length_eq, List.length_range]

lemma encode_keyAt {t : List ℕ} {i : ℕ} (hi : i < t.length) :
    keyAt (encode t) i = ((t.indexOf i : ℚ) + 1) / ((t.length : ℚ) + 1) := by
  unfold keyAt encode
  rw [List.getD_eq_getElem _ _ (by simpa using hi)]
  rw [List.getElem_map]
  rw [List.getElem_range]

/-- Round trip of the codec: decoding the encoding of a valid tour (a
permutation of the n interior indices) returns the tour. -/
lemma decode_encode (t : List ℕ) (ht : t.Perm (List.range t.length)) :
    decode t.length (encode t) = t := by
  have hnd : t.Nodup := ht.nodup_iff.mpr (List.nodup_range _)
  have hsorted : List.Sorted (keyRel (encode t)) t := by
    rw [List.Sorted, List.pairwise_iff_getElem]
    intro i j hi hj hij
    left
    have hmi : t[i] < t.length := by
      have : t[i] ∈ List.range t.length := ht.mem_iff.mp (List.getElem_mem _)
      simpa using this
    have hmj : t[j] < t.length := by
      have : t[j] ∈ List.range t.length := ht.mem_iff.mp (List.getElem_mem _)
      simpa using this
    rw [encode_keyAt hmi, encode_keyAt hmj]
    rw [List.indexOf_getElem hnd i hi, List.indexOf_getElem hnd j hj]
    have hden : (0 : ℚ) < (t.length : ℚ) + 1 := by positivity
    rw [div_lt_div_iff_of_pos_right hden]
    have : (i : ℚ) < (j : ℚ) := by exact_mod_cast hij
    linarith
  have hdsorted : List.Sorted (keyRel (encode t)) (decode t.length (encode t)) :=
    List.sorted_insertionSort _ _
  have hperm : (decode t.length (encode t)).Perm t :=
    (decode_perm _ _).trans ht.symm
  exact List.eq_of_perm_of_sorted hperm hdsorted hsorted

/-- Claim C2: for every valid Tour t (a permutation of the interior indices),
decode(encode(t)) = t. -/
theorem decode_encode_roundtrip (t : List ℕ) (ht : t.Perm (List.range t.length)) :
    decode t.length (encode t) = t :=
  decode_encode t ht

/-- Witness for C2 at the concrete tour [2, 0, 1]. -/
theorem decode_encode_roundtrip_app :
    ([2, 0, 1] : List ℕ).Perm (List.range 3)
    ∧ decode ([2, 0, 1] : List ℕ).length (encode [2, 0, 1]) = [2, 0, 1] :=
  ⟨by decide, decode_encode_roundtrip [2, 0, 1] (by decide)⟩

/-! ## Path cost and the 2-opt refiner, modelled from the spec -/

/-- Total cost of an explicit index sequence under the distance matrix d:
sum of d over consecutive pairs (spec 4.1, fitness). -/
def pathCost (d : ℕ → ℕ → ℤ) : List ℕ → ℤ
  | [] => 0
  | [_] => 0
  | a :: b :: rest => d a b + pathCost d (b :: rest)

/-- Expansion of an interior tour to the explicit index sequence
start = 0, interior slot i as location i + 1, end = n + 1 (spec 3). -/
def expand (n : ℕ) (t : List ℕ) : List ℕ :=
  0 :: (t.map (· + 1) ++ [n + 1])

/-- Modelled from the spec: fitness(tour) = cost of the full path
start, interior in tour order, end (spec 4.1). -/
def fitness (d : ℕ → ℕ → ℤ) (n : ℕ) (t : List ℕ) : ℤ :=
  pathCost d (expand n t)

/-- Modelled from the spec: the 2-opt move on the explicit sequence —
reversal of the sub-path strictly between edges (i, i+1) and (j, j+1)
(spec 4.4). -/
def twoOptSwap (i j : ℕ) (s : List ℕ) : List ℕ :=
  s.take (i + 1) ++ ((s.drop (i + 1)).take (j - i)).reverse ++ s.drop (j + 1)

/-- Candidate edge pairs (i, j) with i < j scanned by the refiner; j + 1 < m
keeps the fixed end point in place, and position 0 (the fixed start) is never
inside the reversed span (spec 4.4). -/
def swapPairs (m : ℕ) : List (ℕ × ℕ) :=
  ((List.range m).map (fun i =>
    ((List.range m).filter (fun j => decide (i < j) && decide (j + 1 < m))).map
      (fun j => (i, j)))).flatten

/-- First improving 2-opt move in scan order, if any (spec 4.4: apply the
first improving move found — the implementer's stated, fixed choice). -/
def findImprove (d : ℕ → ℕ → ℤ) (s : List ℕ) : Option (ℕ × ℕ) :=
  (swapPairs s.length).find?
    (fun p => decide (pathCost d (twoOptSwap p.1 p.2 s) < pathCost d s))

/-- Modelled from the spec: the refiner loop — apply the first improving move
and restart the scan; stop when a full scan finds no improving move (flag
true, local optimum) or when the pass-count cap is exhausted (flag false)
(spec 4.4). -/
def twoOptLoop (d : ℕ → ℕ → ℤ) : ℕ → List ℕ → List ℕ × Bool
  | 0, s => (s, false)
  | cap + 1, s =>
    match findImprove d s with
    | none => (s, true)
    | some p => twoOptLoop d cap (twoOptSwap p.1 p.2 s)

/-- Exhaustive pairwise scan of the local-optimality check (spec 8): no
2-opt move strictly improves the cost of s. -/
def noImprovingSwap (d : ℕ → ℕ → ℤ) (s : List ℕ) : Bool :=
  (swapPairs s.length).all
    (fun p => !(decide (pathCost d (twoOptSwap p.1 p.2 s) < pathCost d s)))

lemma mem_swapPairs {m i j : ℕ} :
    (i, j) ∈ swapPairs m ↔ i < j ∧ j + 1 < m := by
  unfold swapPairs
  simp only [List.mem_flatten, List.mem_map, List.mem_filter, List.mem_range,
    Bool.and_eq_true, decide_eq_true_eq]
  constructor
  · rintro ⟨l, ⟨a, ha, rfl⟩, hj⟩
    simp only [List.mem_map, List.mem_filter, List.mem_range, Bool.and_eq_true,
      decide_eq_true_eq] at hj
    obtain ⟨b, ⟨_, hb1, hb2⟩, heq⟩ := hj
    cases heq
    exact ⟨hb1, hb2⟩
  · rintro ⟨hij, hjm⟩
    refine ⟨((List.range m).filter (fun j => decide (i < j) && decide (j + 1 < m))).map
      (fun j => (i, j)), ⟨i, ?_, rfl⟩, ?_⟩
    · omega
    · simp only [List.mem_map, List.mem_filter, List.mem_range, Bool.and_eq_true,
        decide_eq_true_eq]
      exact ⟨j, ⟨by omega, hij, hjm⟩, rfl⟩

lemma twoOptSwap_perm {i j : ℕ} (hij : i ≤ j) (s : List ℕ) :
    (twoOptSwap i j s).Perm s := by
  unfold twoOptSwap
  have hdrop : s.drop (i + 1) =
      (s.drop (i + 1)).take (j - i) ++ s.drop (j + 1) := by
    have h2 : (s.drop (i + 1)).drop (j - i) = s.drop (j + 1) := by
      rw [List.drop_drop]
      congr 1
      omega
    rw [← h2, List.take_append_drop]
  have hstep : (s.take (i + 1) ++
      (((s.drop (i + 1)).take (j - i)).reverse ++ s.drop (j + 1))).Perm
      (s.take (i + 1) ++ ((s.drop (i + 1)).take (j - i) ++ s.drop (j + 1))) :=
    (List.Perm.refl _).append ((List.reverse_perm _).append (List.Perm.refl _))
  rw [← List.append_assoc] at hstep
  refine hstep.trans ?_
  rw [← hdrop, List.take_append_drop]

lemma head?_append_left {α : Type} {l l' : List α} (h : l ≠ []) :
    (l ++ l').head? = l.head? := by
  cases l with
  | nil => exact absurd rfl h
  | cons a t => rfl

lemma twoOptSwap_head {i j : ℕ} {s : List ℕ} (hs : s ≠ []) :
    (twoOptSwap i j s).head? = s.head? := by
  unfold twoOptSwap
  have htk : s.take (i + 1) ≠ [] := by
    rw [Ne, List.take_eq_nil_iff]
    push_neg
    exact ⟨by omega, hs⟩
  rw [List.append_assoc]
  rw [head?_append_left htk]
  cases s with
  | nil => exact absurd rfl hs
  | cons a t => rfl

lemma getLast?_append_right {α : Type} {l l' : List α} (h : l' ≠ []) :
    (l ++ l').getLast? = l'.getLast? := by
  rw [List.getLast?_append]
  cases hl : l'.getLast? with
  | none => exact absurd (List.getLast?_eq_none_iff.mp hl) h
  | some a => rfl

lemma twoOptSwap_last {i j : ℕ} {s : List ℕ} (hj : j + 1 < s.length) :
    (twoOptSwap i j s).getLast? = s.getLast? := by
  unfold twoOptSwap
  have hne : s.drop (j + 1) ≠ [] := by
    intro h
    have hlen := congrArg List.length h
    simp only [List.length_drop, List.length_nil] at hlen
    omega
  rw [List.append_assoc]
  rw [getLast?_append_right (fun h => hne (List.append_eq_nil.mp h).2)]
  rw [getLast?_append_right hne]
  have hdec : s = s.take (j + 1) ++ s.drop (j + 1) := (List.take_append_drop _ s).symm
  conv_rhs => rw [hdec]
  rw [getLast?_append_right hne]

lemma findImprove_some {d : ℕ → ℕ → ℤ} {s : List ℕ} {i j : ℕ}
    (h : findImprove d s = some (i, j)) :
    i < j ∧ j + 1 < s.length ∧ pathCost d (twoOptSwap i j s) < pathCost d s := by
  have hmem := List.mem_of_find?_eq_some h
  have hp := List.find?_some h
  rw [mem_swapPairs] at hmem
  simp only [decide_eq_true_eq] at hp
  exact ⟨hmem.1, hmem.2, hp⟩

lemma twoOptLoop_perm (d : ℕ → ℕ → ℤ) (cap : ℕ) :
    ∀ s : List ℕ, ((twoOptLoop d cap s).1).Perm s := by
  induction cap with
  | zero => exact fun s => List.Perm.refl s
  | succ k ih =>
    intro s
    unfold twoOptLoop
    cases hf : findImprove d s with
    | none => exact List.Perm.refl s
    | some p =>
      obtain ⟨i, j⟩ := p
      obtain ⟨h1, _, _⟩ := findImprove_some hf
      exact (ih _).trans (twoOptSwap_perm (le_of_lt h1) s)

lemma twoOptLoop_cost (d : ℕ → ℕ → ℤ) (cap : ℕ) :
    ∀ s : List ℕ, pathCost d (twoOptLoop d cap s).1 ≤ pathCost d s := by
  induction cap with
  | zero => exact fun s => le_refl _
  | succ k ih =>
    intro s
    unfold twoOptLoop
    cases hf : findImprove d s with
    | none => exact le_refl _
    | some p =>
      obtain ⟨i, j⟩ := p
      obtain ⟨_, _, h3⟩ := findImprove_some hf
      exact le_trans (ih _) (le_of_lt h3)

lemma twoOptLoop_head (d : ℕ → ℕ → ℤ) (cap : ℕ) :
    ∀ s : List ℕ, s ≠ [] → ((twoOptLoop d cap s).1).head? = s.head? := by
  induction cap with
  | zero => exact fun s _ => rfl
  | succ k ih =>
    intro s hs
    unfold twoOptLoop
    cases hf : findImprove d s with
    | none => rfl
    | some p =>
      obtain ⟨i, j⟩ := p
      have hsw : (twoOptSwap i j s).Perm s := by
        obtain ⟨h1, _, _⟩ := findImprove_some hf
        exact twoOptSwap_perm (le_of_lt h1) s
      have hne : twoOptSwap i j s ≠ [] := by
        intro h
        rw [h] at hsw
        exact hs (hsw.symm.eq_nil)
      rw [ih _ hne, twoOptSwap_head hs]

lemma twoOptLoop_last (d : ℕ → ℕ → ℤ) (cap : ℕ) :
    ∀ s : List ℕ, ((twoOptLoop d cap s).1).getLast? = s.getLast? := by
  induction cap with
  | zero => exact fun s => rfl
  | succ k ih =>
    intro s
    unfold twoOptLoop
    cases hf : findImprove d s with
    | none => rfl
    | some p =>
      obtain ⟨i, j⟩ := p
      obtain ⟨_, h2, _⟩ := findImprove_some hf
      rw [ih _, twoOptSwap_last h2]

lemma twoOptLoop_done (d : ℕ → ℕ → ℤ) (cap : ℕ) :
    ∀ s : List ℕ, (twoOptLoop d cap s).2 = true →
      findImprove d (twoOptLoop d cap s).1 = none := by
  induction cap with
  | zero => intro s h; cases h
  | succ k ih =>
    intro s
    unfold twoOptLoop
    cases hf : findImprove d s with
    | none => intro _; exact hf
    | some p =>
      obtain ⟨i, j⟩ := p
      exact ih _

lemma noImprovingSwap_iff (d : ℕ → ℕ → ℤ) (s : List ℕ) :
    noImprovingSwap d s = true ↔ findImprove d s = none := by
  unfold noImprovingSwap findImprove
  rw [List.all_eq_true, List.find?_eq_none]
  constructor
  · intro h x hx
    have := h x hx
    simpa using this
  · intro h x hx
    have := h x hx
    simpa using this

/-- Coordinates of a concrete 5-location instance used to exercise the
refiner: locations on a line at 0, 3, 1, 2, 4. -/
def lineXs : List ℤ := [0, 3, 1, 2, 4]

/-- Distance matrix of the concrete line instance. -/
def lineD (i j : ℕ) : ℤ := (lineXs.getD i 0 - lineXs.getD j 0).natAbs

/-- Claim C3, amended: when the refiner stops because a full scan found no
improving move (converged flag true) — rather than by exhausting the
pass-count cap — no single 2-opt edge-swap strictly improves the cost of the
output sequence. -/
theorem twoOpt_converged_localopt (d : ℕ → ℕ → ℤ) (cap : ℕ) (s : List ℕ)
    (h : (twoOptLoop d cap s).2 = true) :
    noImprovingSwap d (twoOptLoop d cap s).1 = true :=
  (noImprovingSwap_iff d _).mpr (twoOptLoop_done d cap s h)

/-- Witness for the amended C3: on the line instance the refiner converges
within 10 passes and its output withstands the exhaustive pairwise scan. -/
theorem twoOpt_converged_localopt_app :
    (twoOptLoop lineD 10 [0, 1, 2, 3, 4]).2 = true
    ∧ noImprovingSwap lineD (twoOptLoop lineD 10 [0, 1, 2, 3, 4]).1 = true :=
  ⟨by decide, twoOpt_converged_localopt lineD 10 [0, 1, 2, 3, 4] (by decide)⟩

/-- Counterexample to C3 as stated: with a pass cap of 1 — the spec allows
the refiner to stop on a pass-count cap — the refiner's output on the line
instance still admits a strictly improving 2-opt swap. -/
theorem twoOpt_cap_not_localopt :
    noImprovingSwap lineD (twoOptLoop lineD 1 [0, 1, 2, 3, 4]).1 = false := by
  decide

/-! ## Explicit RNG and the two metaheuristic phases, modelled from the spec -/

/-- Modelled from the spec: the explicit request-scoped RNG object of spec 9
(design note on replacing the ambient random singleton), realized as a linear
congruential generator state. -/
structure Rng where
  state : ℕ
deriving DecidableEq

/-- One LCG step (modulus 2^31). -/
def rngNext (r : Rng) : Rng :=
  ⟨(1103515245 * r.state + 12345) % 2147483648⟩

/-- Uniform draw in [0,1) together with the advanced generator. -/
def rngUnit (r : Rng) : ℚ × Rng :=
  (((rngNext r).state : ℚ) / 2147483648, rngNext r)

/-- Uniform index draw below m together with the advanced generator. -/
def rngNat (r : Rng) (m : ℕ) : ℕ × Rng :=
  ((rngNext r).state % m, rngNext r)

/-- Vector of k uniform draws. -/
def randVec : ℕ → Rng → List ℚ × Rng
  | 0, r => ([], r)
  | k + 1, r =>
    ((rngUnit r).1 :: (randVec k (rngUnit r).2).1, (randVec k (rngUnit r).2).2)

/-- Clamp a key coordinate to the [0,1] key-vector domain (spec 4.3). -/
def clip01 (x : ℚ) : ℚ := max 0 (min 1 x)

/-- Truncated exponential series: rational surrogate for the exp used by the
annealing acceptance rule and the spiral move (the float code's transcendental
exp is modelled by its degree-6 Taylor polynomial). -/
def expApprox (x : ℚ) : ℚ :=
  1 + x + x ^ 2 / 2 + x ^ 3 / 6 + x ^ 4 / 24 + x ^ 5 / 120 + x ^ 6 / 720

/-- Truncated cosine series: rational surrogate for cos(x) in the spiral
move. -/
def cosApprox (x : ℚ) : ℚ :=
  1 - x ^ 2 / 2 + x ^ 4 / 24 - x ^ 6 / 720

/-- Modelled from the spec: a Candidate — continuous key vector, its decoded
Tour and cached fitness (spec 3). -/
structure Cand where
  keys : List ℚ
  tour : List ℕ
  cost : ℤ
deriving DecidableEq

/-- Evaluate a key vector into a Candidate: decode, then compute fitness. -/
def mkCand (d : ℕ → ℕ → ℤ) (n : ℕ) (ks : List ℚ) : Cand :=
  ⟨ks, decode n ks, fitness d n (decode n ks)⟩

/-- Elite update: the best-ever candidate is replaced only by a strictly
better one and is never dropped (spec 3, Population). -/
def bestUpdate (b c : Cand) : Cand := if c.cost < b.cost then c else b

/-- Modelled from the spec: quantum-phase per-candidate state — the
per-dimension measurement probability (alpha squared, with beta squared its
complement) alongside the candidate (spec 4.2). -/
structure QCand where
  probs : List ℚ
  cand : Cand
deriving DecidableEq

/-- Collapse step of spec 4.2: key = alpha^2 * bestKey + beta^2 * U(0,1),
per dimension, clipped to the key domain. -/
def qKeys (n : ℕ) (probs bestKeys us : List ℚ) : List ℚ :=
  (List.range n).map (fun i =>
    clip01 ((probs.getD i 0) * bestKeys.getD i 0 + (1 - probs.getD i 0) * us.getD i 0))

/-- Modelled from the spec: one quantum iteration for one candidate —
rotate amplitudes toward the best by the annealed angle theta, collapse each
dimension against the current best, evaluate, apply the simulated-annealing
acceptance rule, and fold the new evaluation into the running global best
(spec 4.2). -/
def qStep (d : ℕ → ℕ → ℤ) (n : ℕ) (θ temp : ℚ) (best : Cand) (qc : QCand)
    (r : Rng) : QCand × Cand × Rng :=
  let probs2 := qc.probs.map (fun p => clip01 (p + θ))
  let cnew := mkCand d n (qKeys n probs2 best.keys (randVec n r).1)
  let accept := cnew.cost < qc.cand.cost ∨
    (rngUnit (randVec n r).2).1 <
      clip01 (expApprox (-(((cnew.cost - qc.cand.cost : ℤ) : ℚ)) / temp))
  (⟨probs2, if accept then cnew else qc.cand⟩,
   bestUpdate best cnew,
   (rngUnit (randVec n r).2).2)

/-- One quantum generation: fold the per-candidate step over the population,
threading the running best and the generator. -/
def qGen (d : ℕ → ℕ → ℤ) (n : ℕ) (θ temp : ℚ) (pop : List QCand) (best : Cand)
    (r : Rng) : List QCand × Cand × Rng :=
  pop.foldl (fun acc qc =>
      ((qStep d n θ temp acc.2.1 qc acc.2.2).1 :: acc.1,
       (qStep d n θ temp acc.2.1 qc acc.2.2).2.1,
       (qStep d n θ temp acc.2.1 qc acc.2.2).2.2))
    (([] : List QCand), best, r)

/-- Modelled from the spec: the quantum exploration loop — iterations
t = 1..T1 with rotation angle proportional to (1 - t/T1) and geometrically
cooled temperature (spec 4.2). -/
def qLoop (d : ℕ → ℕ → ℤ) (n T1 : ℕ) (cool rot : ℚ) :
    ℕ → ℚ → List QCand → Cand → Rng → List QCand × Cand × Rng
  | 0, _, pop, best, r => (pop, best, r)
  | k + 1, temp, pop, best, r =>
    qLoop d n T1 cool rot k (cool * temp)
      (qGen d n (rot * (1 - ((T1 - k : ℕ) : ℚ) / (T1 : ℚ))) temp pop best r).1
      (qGen d n (rot * (1 - ((T1 - k : ℕ) : ℚ) / (T1 : ℚ))) temp pop best r).2.1
      (qGen d n (rot * (1 - ((T1 - k : ℕ) : ℚ) / (T1 : ℚ))) temp pop best r).2.2

/-- Initial population: candidates with uniform measurement probabilities and
random key vectors (spec 4.2, population creation). -/
def initPop (d : ℕ → ℕ → ℤ) (n : ℕ) : ℕ → Rng → List QCand × Rng
  | 0, r => ([], r)
  | k + 1, r =>
    (⟨List.replicate n (1 / 2), mkCand d n (randVec n r).1⟩
        :: (initPop d n k (randVec n r).2).1,
     (initPop d n k (randVec n r).2).2)

/-- Modelled from the spec: the new key vector for one whale — encircling
toward the leader when p < 1/2 and the magnitude of A is below 1, move toward
a random population member when the magnitude of A is at least 1, spiral
attack otherwise; every coordinate clipped to [0,1] (spec 4.3). -/
def wKeys (n : ℕ) (a bb : ℚ) (leader : Cand) (pop : List Cand) (x : Cand)
    (r : Rng) : List ℚ × Rng :=
  let A := 2 * a * (rngUnit r).1 - a
  let C := 2 * (rngUnit (rngUnit r).2).1
  let r3 := (rngUnit (rngUnit r).2).2
  if (rngUnit r3).1 < 1 / 2 then
    if |A| < 1 then
      ((List.range n).map (fun i =>
        clip01 (keyAt leader.keys i - A * |C * keyAt leader.keys i - keyAt x.keys i|)),
       (rngUnit r3).2)
    else
      ((List.range n).map (fun i =>
        clip01 (keyAt (pop.getD (rngNat (rngUnit r3).2 pop.length).1 x).keys i
          - A * |C * keyAt (pop.getD (rngNat (rngUnit r3).2 pop.length).1 x).keys i
                 - keyAt x.keys i|)),
       (rngNat (rngUnit r3).2 pop.length).2)
  else
    ((List.range n).map (fun i =>
      clip01 (|keyAt leader.keys i - keyAt x.keys i|
          * expApprox (bb * (2 * (rngUnit (rngUnit r3).2).1 - 1))
          * cosApprox (2 * (355 / 113) * (2 * (rngUnit (rngUnit r3).2).1 - 1))
        + keyAt leader.keys i)),
     (rngUnit (rngUnit r3).2).2)

/-- Modelled from the spec: one whale move — build the new key vector,
evaluate it, and keep it only on strict fitness improvement (greedy
acceptance, spec 4.3). -/
def wMove (d : ℕ → ℕ → ℤ) (n : ℕ) (a bb : ℚ) (leader : Cand) (pop : List Cand)
    (x : Cand) (r : Rng) : Cand × Rng :=
  (if (mkCand d n (wKeys n a bb leader pop x r).1).cost < x.cost
    then mkCand d n (wKeys n a bb leader pop x r).1 else x,
   (wKeys n a bb leader pop x r).2)

/-- One whale generation: every whale reads the leader as it stood at the
start of the generation; the leader is recomputed only after the whole
generation was evaluated (generation barrier, spec 5). -/
def wGen (d : ℕ → ℕ → ℤ) (n : ℕ) (a bb : ℚ) (pop : List Cand) (leader : Cand)
    (r : Rng) : List Cand × Cand × Rng :=
  ((pop.foldl (fun acc x =>
      ((wMove d n a bb leader pop x acc.2).1 :: acc.1,
       (wMove d n a bb leader pop x acc.2).2)) (([] : List Cand), r)).1,
   (pop.foldl (fun acc x =>
      ((wMove d n a bb leader pop x acc.2).1 :: acc.1,
       (wMove d n a bb leader pop x acc.2).2)) (([] : List Cand), r)).1.foldl
     bestUpdate leader,
   (pop.foldl (fun acc x =>
      ((wMove d n a bb leader pop x acc.2).1 :: acc.1,
       (wMove d n a bb leader pop x acc.2).2)) (([] : List Cand), r)).2)

/-- Modelled from the spec: the whale exploitation loop — iterations
t = 1..T2 with control parameter a decreasing linearly from 2 to 0
(spec 4.3). -/
def wLoop (d : ℕ → ℕ → ℤ) (n T2 : ℕ) (bb : ℚ) :
    ℕ → List Cand → Cand → Rng → List Cand × Cand × Rng
  | 0, pop, best, r => (pop, best, r)
  | k + 1, pop, best, r =>
    wLoop d n T2 bb k
      (wGen d n (2 * (1 - ((T2 - k : ℕ) : ℚ) / (T2 : ℚ))) bb pop best r).1
      (wGen d n (2 * (1 - ((T2 - k : ℕ) : ℚ) / (T2 : ℚ))) bb pop best r).2.1
      (wGen d n (2 * (1 - ((T2 - k : ℕ) : ℚ) / (T2 : ℚ))) bb pop best r).2.2

/-! ## Orchestrator, modelled from the spec -/

/-- Modelled from the spec: optional configuration — population size,
iteration budgets T1/T2, refiner pass cap, cooling factor, rotation step,
spiral constant and random seed (spec 6). -/
structure Config where
  popSize : ℕ
  quantumIters : ℕ
  whaleIters : ℕ
  passCap : ℕ
  cooling : ℚ
  rotStep : ℚ
  spiralB : ℚ
  seed : ℕ
deriving DecidableEq

/-- Modelled from the spec: the input-order candidate — the encoding of the
identity interior tour; the initial elite is seeded with it so that the
best-ever candidate never falls behind the naive input-order tour (spec 8,
non-regression, together with spec 3's never-dropped elite). -/
def idCand (d : ℕ → ℕ → ℤ) (n : ℕ) : Cand :=
  mkCand d n (encode (List.range n))

/-- Population creation at the start of the quantum phase. -/
def stage0 (cfg : Config) (d : ℕ → ℕ → ℤ) (n : ℕ) : List QCand × Rng :=
  initPop d n cfg.popSize ⟨cfg.seed⟩

/-- Initial elite: the input-order candidate folded with the initial
population. -/
def best0 (cfg : Config) (d : ℕ → ℕ → ℤ) (n : ℕ) : Cand :=
  (stage0 cfg d n).1.foldl (fun b qc => bestUpdate b qc.cand) (idCand d n)

/-- Output of the quantum exploration phase (population, running best,
generator). -/
def stage1 (cfg : Config) (d : ℕ → ℕ → ℤ) (n : ℕ) : List QCand × Cand × Rng :=
  qLoop d n cfg.quantumIters cfg.cooling cfg.rotStep cfg.quantumIters 1
    (stage0 cfg d n).1 (best0 cfg d n) (stage0 cfg d n).2

/-- Output of the whale exploitation phase, seeded with the quantum phase's
population and best. -/
def stage2 (cfg : Config) (d : ℕ → ℕ → ℤ) (n : ℕ) : List Cand × Cand × Rng :=
  wLoop d n cfg.whaleIters cfg.spiralB cfg.whaleIters
    ((stage1 cfg d n).1.map (fun qc => qc.cand)) (stage1 cfg d n).2.1
    (stage1 cfg d n).2.2

/-- Modelled from the spec: the OptimizationResult fields settled by the
claims — the expanded order over original indices, its total distance, the
method tag and the refiner's convergence flag (spec 3). -/
structure OptResult where
  order : List ℕ
  totalDistance : ℤ
  method : String
  converged : Bool
deriving DecidableEq

/-- Modelled from the spec: the orchestrator (spec 4.5) — with 0 or 1
interior waypoints emit the identity order directly (degenerate shortcut);
otherwise run the quantum phase, the whale phase and the 2-opt refiner in
sequence on numLoc locations (indices 0 = start .. numLoc - 1 = end, interior
count n = numLoc - 2). -/
def optimize (cfg : Config) (d : ℕ → ℕ → ℤ) (numLoc : ℕ) : OptResult :=
  if numLoc - 2 ≤ 1 then
    { order := List.range numLoc
      totalDistance := pathCost d (List.range numLoc)
      method := "trivial"
      converged := true }
  else
    { order := (twoOptLoop d cfg.passCap
        (expand (numLoc - 2) (stage2 cfg d (numLoc - 2)).2.1.tour)).1
      totalDistance := pathCost d (twoOptLoop d cfg.passCap
        (expand (numLoc - 2) (stage2 cfg d (numLoc - 2)).2.1.tour)).1
      method := "hybrid"
      converged := (twoOptLoop d cfg.passCap
        (expand (numLoc - 2) (stage2 cfg d (numLoc - 2)).2.1.tour)).2 }

/-- Structural invariant of evaluated candidates: the tour is a permutation
of the n interior indices and the cached cost is its fitness. -/
def candOK (d : ℕ → ℕ → ℤ) (n : ℕ) (c : Cand) : Prop :=
  c.tour.Perm (List.range n) ∧ c.cost = fitness d n c.tour

lemma mkCand_ok (d : ℕ → ℕ → ℤ) (n : ℕ) (ks : List ℚ) :
    candOK d n (mkCand d n ks) :=
  ⟨decode_perm n ks, rfl⟩

lemma idCand_ok (d : ℕ → ℕ → ℤ) (n : ℕ) : candOK d n (idCand d n) :=
  mkCand_ok d n _

lemma bestUpdate_ok {d : ℕ → ℕ → ℤ} {n : ℕ} {b c : Cand} {bound : ℤ}
    (hb : candOK d n b ∧ b.cost ≤ bound) (hc : candOK d n c) :
    candOK d n (bestUpdate b c) ∧ (bestUpdate b c).cost ≤ bound := by
  unfold bestUpdate
  by_cases h : c.cost < b.cost
  · rw [if_pos h]
    exact ⟨hc, le_trans (le_of_lt h) hb.2⟩
  · rw [if_neg h]
    exact hb

lemma foldl_inv {α β : Type} (P : β → Prop) (Q : α → Prop) (f : β → α → β)
    (l : List α) (hl : ∀ a ∈ l, Q a) (hf : ∀ b a, Q a → P b → P (f b a)) :
    ∀ b, P b → P (l.foldl f b) := by
  induction l with
  | nil => exact fun b hb => hb
  | cons a t ih =>
    intro b hb
    exact ih (fun x hx => hl x (List.mem_cons_of_mem a hx)) (f b a)
      (hf b a (hl a (List.mem_cons_self a t)) hb)

lemma initPop_ok (d : ℕ → ℕ → ℤ) (n : ℕ) (k : ℕ) (r : Rng) :
    ∀ qc ∈ (initPop d n k r).1, candOK d n qc.cand := by
  induction k generalizing r with
  | zero => intro qc h; cases h
  | succ m ih =>
    intro qc h
    unfold initPop at h
    rcases List.mem_cons.mp h with h1 | h2
    · rw [h1]
      exact mkCand_ok d n _
    · exact ih _ qc h2

lemma qStep_best (d : ℕ → ℕ → ℤ) (n : ℕ) (θ temp : ℚ) (best : Cand)
    (qc : QCand) (r : Rng) :
    (qStep d n θ temp best qc r).2.1
      = bestUpdate best (mkCand d n
          (qKeys n (qc.probs.map (fun p => clip01 (p + θ))) best.keys
            (randVec n r).1)) := rfl

lemma qStep_popOK {d : ℕ → ℕ → ℤ} {n : ℕ} {θ temp : ℚ} {best : Cand}
    {qc : QCand} {r : Rng} (h : candOK d n qc.cand) :
    candOK d n (qStep d n θ temp best qc r).1.cand := by
  unfold qStep
  by_cases hacc : (mkCand d n (qKeys n (qc.probs.map (fun p => clip01 (p + θ)))
      best.keys (randVec n r).1)).cost < qc.cand.cost ∨
    (rngUnit (randVec n r).2).1 <
      clip01 (expApprox (-((((mkCand d n (qKeys n
        (qc.probs.map (fun p => clip01 (p + θ))) best.keys
        (randVec n r).1)).cost - qc.cand.cost : ℤ) : ℚ)) / temp))
  · simp only [if_pos hacc]
    exact mkCand_ok d n _
  · simp only [if_neg hacc]
    exact h

lemma qGen_inv {d : ℕ → ℕ → ℤ} {n : ℕ} {bound : ℤ} (θ temp : ℚ)
    (pop : List QCand) (best : Cand) (r : Rng)
    (hpop : ∀ qc ∈ pop, candOK d n qc.cand)
    (hbest : candOK d n best ∧ best.cost ≤ bound) :
    (∀ qc ∈ (qGen d n θ temp pop best r).1, candOK d n qc.cand)
    ∧ (candOK d n (qGen d n θ temp pop best r).2.1
        ∧ (qGen d n θ temp pop best r).2.1.cost ≤ bound) := by
  unfold qGen
  refine foldl_inv
    (fun acc : List QCand × Cand × Rng =>
      (∀ qc ∈ acc.1, candOK d n qc.cand)
      ∧ (candOK d n acc.2.1 ∧ acc.2.1.cost ≤ bound))
    (fun qc => candOK d n qc.cand) _ pop hpop ?_ _ ⟨fun qc h => absurd h (by simp), hbest⟩
  intro acc qc hq hacc
  refine ⟨?_, ?_⟩
  · intro x hx
    rcases List.mem_cons.mp hx with h1 | h2
    · rw [h1]
      exact qStep_popOK hq
    · exact hacc.1 x h2
  · rw [qStep_best]
    exact bestUpdate_ok hacc.2 (mkCand_ok d n _)

lemma qLoop_inv {d : ℕ → ℕ → ℤ} {n T1 : ℕ} {bound : ℤ} (cool rot : ℚ) (k : ℕ) :
    ∀ (temp : ℚ) (pop : List QCand) (best : Cand) (r : Rng),
      (∀ qc ∈ pop, candOK d n qc.cand) →
      (candOK d n best ∧ best.cost ≤ bound) →
      (∀ qc ∈ (qLoop d n T1 cool rot k temp pop best r).1, candOK d n qc.cand)
      ∧ (candOK d n (qLoop d n T1 cool rot k temp pop best r).2.1
          ∧ (qLoop d n T1 cool rot k temp pop best r).2.1.cost ≤ bound) := by
  induction k with
  | zero => exact fun temp pop best r hpop hbest => ⟨hpop, hbest⟩
  | succ m ih =>
    intro temp pop best r hpop hbest
    unfold qLoop
    have h := qGen_inv (rot * (1 - ((T1 - m : ℕ) : ℚ) / (T1 : ℚ)))
      temp pop best r hpop hbest
    exact ih _ _ _ _ h.1 h.2

lemma wMove_ok {d : ℕ → ℕ → ℤ} {n : ℕ} (a bb : ℚ) (leader : Cand)
    (pop : List Cand) (x : Cand) (r : Rng) (hx : candOK d n x) :
    candOK d n (wMove d n a bb leader pop x r).1 := by
  unfold wMove
  by_cases h : (mkCand d n (wKeys n a bb leader pop x r).1).cost < x.cost
  · simp only [if_pos h]
    exact mkCand_ok d n _
  · simp only [if_neg h]
    exact hx

lemma wGen_inv {d : ℕ → ℕ → ℤ} {n : ℕ} {bound : ℤ} (a bb : ℚ)
    (pop : List Cand) (leader : Cand) (r : Rng)
    (hpop : ∀ c ∈ pop, candOK d n c)
    (hl : candOK d n leader ∧ leader.cost ≤ bound) :
    (∀ c ∈ (wGen d n a bb pop leader r).1, candOK d n c)
    ∧ (candOK d n (wGen d n a bb pop leader r).2.1
        ∧ (wGen d n a bb pop leader r).2.1.cost ≤ bound) := by
  have hpop2 : ∀ c ∈ (pop.foldl (fun acc x =>
      ((wMove d n a bb leader pop x acc.2).1 :: acc.1,
       (wMove d n a bb leader pop x acc.2).2)) (([] : List Cand), r)).1,
      candOK d n c := by
    refine foldl_inv
      (fun acc : List Cand × Rng => ∀ c ∈ acc.1, candOK d n c)
      (fun c => candOK d n c) _ pop hpop ?_ _ (fun c h => absurd h (by simp))
    intro acc x hx hacc c hc
    rcases List.mem_cons.mp hc with h1 | h2
    · rw [h1]
      exact wMove_ok a bb leader pop x acc.2 hx
    · exact hacc c h2
  constructor
  · exact hpop2
  · exact foldl_inv
      (fun b : Cand => candOK d n b ∧ b.cost ≤ bound)
      (fun c => candOK d n c) bestUpdate _ hpop2
      (fun b c hc hb => bestUpdate_ok hb hc) leader hl

lemma wLoop_inv {d : ℕ → ℕ → ℤ} {n T2 : ℕ} {bound : ℤ} (bb : ℚ) (k : ℕ) :
    ∀ (pop : List Cand) (best : Cand) (r : Rng),
      (∀ c ∈ pop, candOK d n c) →
      (candOK d n best ∧ best.cost ≤ bound) →
      candOK d n (wLoop d n T2 bb k pop best r).2.1
      ∧ (wLoop d n T2 bb k pop best r).2.1.cost ≤ bound := by
  induction k with
  | zero => exact fun pop best r hpop hbest => hbest
  | succ m ih =>
    intro pop best r hpop hbest
    unfold wLoop
    have h := wGen_inv (2 * (1 - ((T2 - m : ℕ) : ℚ) / (T2 : ℚ))) bb pop best r hpop hbest
    exact ih _ _ _ h.1 h.2

lemma best0_inv (cfg : Config) (d : ℕ → ℕ → ℤ) (n : ℕ) :
    candOK d n (best0 cfg d n) ∧ (best0 cfg d n).cost ≤ (idCand d n).cost := by
  unfold best0
  exact foldl_inv
    (fun b : Cand => candOK d n b ∧ b.cost ≤ (idCand d n).cost)
    (fun qc : QCand => candOK d n qc.cand)
    (fun b qc => bestUpdate b qc.cand) _ (initPop_ok d n cfg.popSize _)
    (fun b qc hq hb => bestUpdate_ok hb hq) (idCand d n)
    ⟨idCand_ok d n, le_refl _⟩

lemma stage2_inv (cfg : Config) (d : ℕ → ℕ → ℤ) (n : ℕ) :
    candOK d n (stage2 cfg d n).2.1
    ∧ (stage2 cfg d n).2.1.cost ≤ (idCand d n).cost := by
  unfold stage2
  have h1 : (∀ qc ∈ (stage1 cfg d n).1, candOK d n qc.cand)
      ∧ (candOK d n (stage1 cfg d n).2.1
          ∧ (stage1 cfg d n).2.1.cost ≤ (idCand d n).cost) :=
    qLoop_inv cfg.cooling cfg.rotStep cfg.quantumIters 1 (stage0 cfg d n).1
      (best0 cfg d n) (stage0 cfg d n).2 (initPop_ok d n cfg.popSize _)
      (best0_inv cfg d n)
  refine wLoop_inv cfg.spiralB cfg.whaleIters _ _ _ ?_ h1.2
  intro c hc
  rcases List.mem_map.mp hc with ⟨qc, hq, rfl⟩
  exact h1.1 qc hq

lemma expand_range (n : ℕ) : expand n (List.range n) = List.range (n + 2) := by
  unfold expand
  have h1 : List.range (n + 2) = List.range (n + 1) ++ [n + 1] := List.range_succ (n + 1)
  have h2 : List.range (n + 1) = 0 :: List.map Nat.succ (List.range n) :=
    List.range_succ_eq_map n
  rw [h1, h2]
  simp only [List.cons_append]

lemma expand_perm {n : ℕ} {t : List ℕ} (ht : t.Perm (List.range n)) :
    (expand n t).Perm (List.range (n + 2)) := by
  rw [← expand_range]
  unfold expand
  exact ((ht.map _).append (List.Perm.refl _)).cons 0

lemma idCand_cost (d : ℕ → ℕ → ℤ) (n : ℕ) :
    (idCand d n).cost = pathCost d (List.range (n + 2)) := by
  unfold idCand mkCand
  have hdec : decode n (encode (List.range n)) = List.range n := by
    have h := decode_encode (List.range n) (by rw [List.length_range])
    rwa [List.length_range] at h
  simp only [hdec]
  unfold fitness
  rw [expand_range]

lemma expand_head (n : ℕ) (t : List ℕ) : (expand n t).head? = some 0 := rfl

lemma expand_last (n : ℕ) (t : List ℕ) : (expand n t).getLast? = some (n + 1) := by
  unfold expand
  rw [← List.cons_append, List.getLast?_concat]

/-- Claim C1: for every valid input (at least 2 locations), the order returned
by optimize is a permutation of all location indices whose first entry is the
caller's start (index 0) and whose last entry is the caller's end
(index numLoc - 1). -/
theorem optimize_order_perm (cfg : Config) (d : ℕ → ℕ → ℤ) (numLoc : ℕ)
    (h : 2 ≤ numLoc) :
    (optimize cfg d numLoc).order.Perm (List.range numLoc)
    ∧ (optimize cfg d numLoc).order.head? = some 0
    ∧ (optimize cfg d numLoc).order.getLast? = some (numLoc - 1) := by
  obtain ⟨m, rfl⟩ : ∃ m, numLoc = m + 2 := ⟨numLoc - 2, by omega⟩
  unfold optimize
  by_cases hd : m + 2 - 2 ≤ 1
  · simp only [if_pos hd]
    refine ⟨List.Perm.refl _, ?_, ?_⟩
    · rw [show m + 2 = (m + 1) + 1 by rfl, List.range_succ_eq_map]
      rfl
    · rw [show m + 2 = (m + 1) + 1 by rfl, List.range_succ, List.getLast?_concat]
      simp
  · simp only [if_neg hd]
    have hm : m + 2 - 2 = m := by omega
    rw [hm]
    have hs := stage2_inv cfg d m
    have hperm : (expand m (stage2 cfg d m).2.1.tour).Perm (List.range (m + 2)) :=
      expand_perm hs.1.1
    have hne : expand m (stage2 cfg d m).2.1.tour ≠ [] := by
      unfold expand
      simp
    refine ⟨?_, ?_, ?_⟩
    · exact (twoOptLoop_perm d cfg.passCap _).trans hperm
    · rw [twoOptLoop_head d cfg.passCap _ hne, expand_head]
    · rw [twoOptLoop_last d cfg.passCap _, expand_last]
      simp

/-- Witness for C1 on the concrete 5-location line instance with zero
metaheuristic budgets. -/
theorem optimize_order_perm_app :
    (2 ≤ 5)
    ∧ ((optimize ⟨0, 0, 0, 8, 9 / 10, 1 / 10, 1, 7⟩ lineD 5).order.Perm (List.range 5)
      ∧ (optimize ⟨0, 0, 0, 8, 9 / 10, 1 / 10, 1, 7⟩ lineD 5).order.head? = some 0
      ∧ (optimize ⟨0, 0, 0, 8, 9 / 10, 1 / 10, 1, 7⟩ lineD 5).order.getLast? = some (5 - 1)) :=
  ⟨by decide, optimize_order_perm ⟨0, 0, 0, 8, 9 / 10, 1 / 10, 1, 7⟩ lineD 5 (by decide)⟩

/-- Claim C4: the returned tour's total distance never regresses past the
naive input-order tour. -/
theorem optimize_fitness_nonregression (cfg : Config) (d : ℕ → ℕ → ℤ)
    (numLoc : ℕ) (h : 2 ≤ numLoc) :
    (optimize cfg d numLoc).totalDistance ≤ pathCost d (List.range numLoc) := by
  obtain ⟨m, rfl⟩ : ∃ m, numLoc = m + 2 := ⟨numLoc - 2, by omega⟩
  unfold optimize
  by_cases hd : m + 2 - 2 ≤ 1
  · simp only [if_pos hd]
    exact le_refl _
  · simp only [if_neg hd]
    have hm : m + 2 - 2 = m := by omega
    rw [hm]
    have hs := stage2_inv cfg d m
    calc pathCost d (twoOptLoop d cfg.passCap
          (expand m (stage2 cfg d m).2.1.tour)).1
        ≤ pathCost d (expand m (stage2 cfg d m).2.1.tour) :=
          twoOptLoop_cost d cfg.passCap _
      _ = fitness d m (stage2 cfg d m).2.1.tour := rfl
      _ = (stage2 cfg d m).2.1.cost := hs.1.2.symm
      _ ≤ (idCand d m).cost := hs.2
      _ = pathCost d (List.range (m + 2)) := idCand_cost d m

/-- Witness for C4 on the concrete line instance. -/
theorem optimize_fitness_nonregression_app :
    (2 ≤ 5)
    ∧ (optimize ⟨0, 0, 0, 8, 9 / 10, 1 / 10, 1, 7⟩ lineD 5).totalDistance
        ≤ pathCost lineD (List.range 5) :=
  ⟨by decide,
   optimize_fitness_nonregression ⟨0, 0, 0, 8, 9 / 10, 1 / 10, 1, 7⟩ lineD 5 (by decide)⟩

/-- Claim C5: the whole pipeline is a deterministic function of the
configuration (which carries the random seed) and the input — equal seeds and
equal inputs give bit-identical results. -/
theorem optimize_deterministic (cfg1 cfg2 : Config) (d1 d2 : ℕ → ℕ → ℤ)
    (n1 n2 : ℕ) (hc : cfg1 = cfg2) (hd : d1 = d2) (hn : n1 = n2) :
    optimize cfg1 d1 n1 = optimize cfg2 d2 n2 := by
  rw [hc, hd, hn]

/-- Witness for C5: two runs with the same seed, matrix and location count. -/
theorem optimize_deterministic_app :
    optimize ⟨2, 3, 3, 8, 9 / 10, 1 / 10, 1, 42⟩ lineD 5
      = optimize ⟨2, 3, 3, 8, 9 / 10, 1 / 10, 1, 42⟩ lineD 5 :=
  optimize_deterministic _ _ lineD lineD 5 5 rfl rfl rfl
